import Mathlib

/-!
Shallow embedding of the Daily Puzzle Scheduling & Scoring Engine of
`src/src/App.jsx` (The Dead Drop).

Machine arithmetic conventions: JavaScript 32-bit integer coercions
(`Math.imul`, `^`, `|`, `>>>`) are modelled on `Nat` with explicit
`% 4294967296`; the unsigned bit pattern of the coerced value is used
throughout, which agrees with the JS signed/unsigned representations
modulo 2^32.  The floating-point divisions/multiplications performed by
the source are exact in IEEE doubles for the operand ranges the program
uses (a 32-bit numerator over the power of two 2^32, multiplied by a
small list length), so they are modelled by exact rational arithmetic.
-/

namespace DeadDrop

/-- Line 8 of src/src/App.jsx: `t = Math.imul(t ^ t >>> 15, t | 1)`. -/
def mix1 (t : ℕ) : ℕ := ((t ^^^ (t >>> 15)) * (t ||| 1)) % 4294967296

/-- Line 9 of src/src/App.jsx: `t ^= t + Math.imul(t ^ t >>> 7, t | 61)`. -/
def mix2 (t : ℕ) : ℕ :=
  t ^^^ ((t + (((t ^^^ (t >>> 7)) * (t ||| 61)) % 4294967296)) % 4294967296)

/-- One call of the closure returned by `seededRandom` (src/src/App.jsx
lines 5-12, the mulberry32 generator): the state update
`seed += 0x6D2B79F5` followed by the mixing steps, returning
`(new state, output numerator)`.  The JS float output is
`numerator / 4294967296`.  (The commutative addition of the constant is
written constant-first so that open terms stay in normal form.) -/
def seededRandomStep (seed : ℕ) : ℕ × ℕ :=
  let s := (0x6D2B79F5 + seed) % 4294967296
  let t := mix2 (mix1 s)
  (s, t ^^^ (t >>> 14))

/-- The internal state of the generator after `n` draws from initial
seed `seed`. -/
def seededRandomState (seed : ℕ) : ℕ → ℕ
  | 0 => seed
  | n + 1 => (seededRandomStep (seededRandomState seed n)).1

/-- Numerator of the `n`-th output (0-indexed) of `seededRandom seed`. -/
def seededRandomNum (seed n : ℕ) : ℕ :=
  (seededRandomStep (seededRandomState seed n)).2

/-- The `n`-th float output of `seededRandom seed`, as an exact rational. -/
def seededRandomQ (seed n : ℕ) : ℚ :=
  (seededRandomNum seed n : ℚ) / 4294967296

theorem seededRandomStep_fst_lt (seed : ℕ) : (seededRandomStep seed).1 < 4294967296 := by
  simp only [seededRandomStep]
  exact Nat.mod_lt _ (by norm_num)

theorem mix1_lt (t : ℕ) : mix1 t < 4294967296 :=
  Nat.mod_lt _ (by norm_num)

theorem shiftRight_le_self (t k : ℕ) : t >>> k ≤ t := by
  rw [Nat.shiftRight_eq_div_pow]; exact Nat.div_le_self _ _

theorem mix2_lt {t : ℕ} (h : t < 4294967296) : mix2 t < 4294967296 := by
  have h32 : (4294967296 : ℕ) = 2 ^ 32 := by norm_num
  rw [h32] at h ⊢
  exact Nat.xor_lt_two_pow h (by rw [← h32]; exact Nat.mod_lt _ (by norm_num))

theorem seededRandomStep_snd_lt (seed : ℕ) : (seededRandomStep seed).2 < 4294967296 := by
  have h32 : (4294967296 : ℕ) = 2 ^ 32 := by norm_num
  have ht : mix2 (mix1 ((0x6D2B79F5 + seed) % 4294967296)) < 4294967296 :=
    mix2_lt (mix1_lt _)
  show mix2 (mix1 _) ^^^ (mix2 (mix1 _) >>> 14) < 4294967296
  rw [h32]
  exact Nat.xor_lt_two_pow (h32 ▸ ht)
    (lt_of_le_of_lt (shiftRight_le_self _ _) (h32 ▸ ht))

/-- In-place swap of positions `i` and `j` of a list, as performed by
`[ids[i], ids[j]] = [ids[j], ids[i]]` on line 19 of src/src/App.jsx.
For in-range indices this is the usual transposition. -/
def listSwap (l : List ℕ) (i j : ℕ) : List ℕ :=
  (l.set i (l.getD j 0)).set j (l.getD i 0)

/-- The Fisher-Yates loop of `getMasterPuzzleList` (src/src/App.jsx
lines 17-20), recursing on the loop index `i` (from `ids.length - 1`
down to `1`), threading the PRNG state.  `j` is
`Math.floor(random() * (i + 1))`: the float product is exact for the
operand ranges involved, so the floor is Nat division of the output
numerator times `i + 1` by 2^32. -/
def fisherYatesAux (state : ℕ) : List ℕ → ℕ → List ℕ
  | l, 0 => l
  | l, k + 1 =>
    let p := seededRandomStep state
    let j := p.2 * (k + 2) / 4294967296
    fisherYatesAux p.1 (listSwap l (k + 1) j) k

/-- The function `getMasterPuzzleList` (src/src/App.jsx lines 14-22), parameterised
by the pool's id list and by the seed (the source fixes the seed to 42
and reads the ids from the static pool). -/
def getMasterPuzzleList (ids : List ℕ) (seed : ℕ) : List ℕ :=
  fisherYatesAux seed ids (ids.length - 1)

/-- The Master Order Builder exactly as the spec words it ("iterating
the index `i` from `length-1` down to `1`; at each step draw `r` from
the PRNG, compute `j = floor(r * (i+1))`, swap positions `i` and `j`"),
with `r` the exact rational value of the PRNG float and `j` its floor.
This is the spec-side definition used to state the refinement. -/
def specBuildAux (state : ℕ) : List ℕ → ℕ → List ℕ
  | l, 0 => l
  | l, k + 1 =>
    let r : ℚ := ((seededRandomStep state).2 : ℚ) / 4294967296
    let j := ⌊r * ((k + 1 : ℕ) + 1 : ℚ)⌋₊
    specBuildAux (seededRandomStep state).1 (listSwap l (k + 1) j) k

/-- Spec-side Master Order Builder `build(pool_ids, seed)`. -/
def specBuild (ids : List ℕ) (seed : ℕ) : List ℕ :=
  specBuildAux seed ids (ids.length - 1)

theorem floor_mul_div (o m : ℕ) :
    ⌊((o : ℚ) / 4294967296) * (m : ℚ)⌋₊ = o * m / 4294967296 := by
  have : ((o : ℚ) / 4294967296) * (m : ℚ) = ((o * m : ℕ) : ℚ) / ((4294967296 : ℕ) : ℚ) := by
    push_cast; ring
  rw [this, Nat.floor_div_eq_div]

theorem fisherYatesAux_eq_specBuildAux (k : ℕ) :
    ∀ (state : ℕ) (l : List ℕ), fisherYatesAux state l k = specBuildAux state l k := by
  induction k with
  | zero => intro state l; rfl
  | succ k ih =>
    intro state l
    have hj : ⌊(((seededRandomStep state).2 : ℚ) / 4294967296) * ((k + 1 : ℕ) + 1 : ℚ)⌋₊
        = (seededRandomStep state).2 * (k + 2) / 4294967296 := by
      have hm : ((k + 1 : ℕ) + 1 : ℚ) = ((k + 2 : ℕ) : ℚ) := by push_cast; ring
      rw [hm, floor_mul_div]
    simp only [fisherYatesAux, specBuildAux, hj]
    exact ih _ _

theorem listSwap_length (l : List ℕ) (i j : ℕ) : (listSwap l i j).length = l.length := by
  simp [listSwap]

theorem getD_cons_set_perm :
    ∀ (l : List ℕ) (k : ℕ) (a : ℕ), k < l.length →
      ((l.getD k 0) :: l.set k a).Perm (a :: l)
  | b :: t, 0, a, _ => by
    simpa using List.Perm.swap a b t
  | b :: t, k + 1, a, h => by
    simp only [List.getD_cons_succ, List.set_cons_succ]
    exact (List.Perm.swap b (t.getD k 0) (t.set k a)).trans
      (((getD_cons_set_perm t k a (by simpa using h)).cons b).trans
        (List.Perm.swap a b t))

theorem listSwap_perm :
    ∀ (l : List ℕ) (i j : ℕ), i < l.length → j < l.length → (listSwap l i j).Perm l := by
  intro l
  induction l with
  | nil => intro i j hi _; simp at hi
  | cons b t ih =>
    intro i j hi hj
    match i, j with
    | 0, 0 =>
      simp [listSwap]
    | 0, m + 1 =>
      have hm : m < t.length := by simpa using hj
      simp only [listSwap, List.getD_cons_succ, List.getD_cons_zero,
        List.set_cons_zero, List.set_cons_succ]
      exact getD_cons_set_perm t m b hm
    | n + 1, 0 =>
      have hn : n < t.length := by simpa using hi
      simp only [listSwap, List.getD_cons_succ, List.getD_cons_zero,
        List.set_cons_zero, List.set_cons_succ]
      exact getD_cons_set_perm t n b hn
    | n + 1, m + 1 =>
      have hn : n < t.length := by simpa using hi
      have hm : m < t.length := by simpa using hj
      simp only [listSwap, List.getD_cons_succ, List.set_cons_succ]
      exact (ih n m hn hm).cons b

theorem jIndex_le (o k : ℕ) (ho : o < 4294967296) : o * (k + 2) / 4294967296 ≤ k + 1 := by
  have : o * (k + 2) / 4294967296 < k + 2 := by
    rw [Nat.div_lt_iff_lt_mul (by norm_num : 0 < 4294967296)]
    calc o * (k + 2) < 4294967296 * (k + 2) :=
          mul_lt_mul_of_pos_right ho (by omega)
      _ = (k + 2) * 4294967296 := Nat.mul_comm _ _
  omega

theorem fisherYatesAux_perm :
    ∀ (k : ℕ) (state : ℕ) (l : List ℕ), k < l.length → (fisherYatesAux state l k).Perm l := by
  intro k
  induction k with
  | zero => intro state l _; exact List.Perm.refl l
  | succ k ih =>
    intro state l hk
    simp only [fisherYatesAux]
    have hswap : (listSwap l (k + 1) ((seededRandomStep state).2 * (k + 2) / 4294967296)).Perm l :=
      listSwap_perm l (k + 1) _ hk
        (lt_of_le_of_lt (jIndex_le _ k (seededRandomStep_snd_lt state)) hk)
    exact ((ih (seededRandomStep state).1 _ (by rw [listSwap_length]; omega)).trans hswap)

theorem getMasterPuzzleList_perm (ids : List ℕ) (seed : ℕ) :
    (getMasterPuzzleList ids seed).Perm ids := by
  match ids with
  | [] => exact List.Perm.refl _
  | a :: t =>
    exact fisherYatesAux_perm (a :: t).length.pred seed (a :: t) (by simp)

/-- C1: for every fixed puzzle pool and fixed seed, the Master Order
Builder is deterministic and implements exactly the specified
Fisher-Yates shuffle (index `i` from `length-1` down to `1`, draw `r`,
`j = floor(r * (i+1))`, swap `i` and `j`): the code's
`getMasterPuzzleList` coincides with the spec-side `build` (so any two
invocations, even across the two formulations, produce the identical
result), and that result is a permutation of the pool's ids. -/
theorem C1_masterOrder_fisherYates (ids : List ℕ) (seed : ℕ) :
    getMasterPuzzleList ids seed = specBuild ids seed ∧
    (getMasterPuzzleList ids seed).Perm ids :=
  ⟨fisherYatesAux_eq_specBuildAux _ _ _, getMasterPuzzleList_perm ids seed⟩

/-- C2: for every seed and every position `n` in the stream, the
PRNG's `n`-th output is a float in the half-open interval `[0, 1)`, and
the mixing arithmetic stays inside the 32-bit range (the state after any
step and the output numerator are reduced modulo 2^32).  The sequence is
a pure function of the seed, so identical seeds give identical
sequences. -/
theorem C2_seededRandom_range (seed n : ℕ) :
    seededRandomState seed (n + 1) < 4294967296 ∧
    seededRandomNum seed n < 4294967296 ∧
    0 ≤ seededRandomQ seed n ∧ seededRandomQ seed n < 1 := by
  refine ⟨seededRandomStep_fst_lt _, seededRandomStep_snd_lt _, ?_, ?_⟩
  · exact div_nonneg (by positivity) (by norm_num)
  · rw [seededRandomQ, div_lt_one (by norm_num)]
    exact_mod_cast seededRandomStep_snd_lt _

/-- Midnight truncation for `getDayIndex` (src/src/App.jsx lines 26-31).  Timestamps are local
wall-clock milliseconds (as produced by `Date.getTime()` for a clock in
a fixed-offset timezone, where consecutive local midnights are exactly
86,400,000 ms apart).  `jsMidnight` models `today.setHours(0,0,0,0)`:
truncation to the greatest local midnight not after `t`.  `Math.floor`
of the millisecond quotient is `Int` Euclidean division by the positive
constant 86,400,000. -/
def jsMidnight (t : ℤ) : ℤ := t - t % 86400000

/-- The function `getDayIndex`, parameterised by the epoch timestamp (the source
fixes `epoch` to the local midnight of 2024-01-01) and by `now`. -/
def getDayIndex (epoch now : ℤ) : ℤ := (jsMidnight now - epoch) / 86400000

theorem jsMidnight_eq (t : ℤ) : jsMidnight t = 86400000 * (t / 86400000) := by
  rw [jsMidnight, Int.emod_def]; ring

theorem jsMidnight_mono {t₁ t₂ : ℤ} (h : t₁ ≤ t₂) : jsMidnight t₁ ≤ jsMidnight t₂ := by
  rw [jsMidnight_eq, jsMidnight_eq]
  exact mul_le_mul_of_nonneg_left (Int.ediv_le_ediv (by norm_num) h) (by norm_num)

/-- The function `getTodaysPuzzles` (src/src/App.jsx lines 33-41): the 5 slots pushed
by the loop, slot `i` holding `order[(dayIndex * 5 + i) % order.length]`. -/
def getTodaysPuzzles (dayIndex : ℕ) (order : List ℕ) : List ℕ :=
  (List.range 5).map (fun i => order.getD ((dayIndex * 5 + i) % order.length) 0)

/-- C3: for every wall-clock time `now ≥ epoch` (with `epoch` itself
a local midnight, as in the source), `getDayIndex` equals
`floor((midnight(now) - epoch) / 86400000)` and is never negative;
it is monotone non-decreasing in `now`, constant within a local day, and
increases by exactly 1 at the next local-midnight boundary. -/
theorem C3_getDayIndex_spec (epoch now : ℤ)
    (hE : epoch % 86400000 = 0) (hnow : epoch ≤ now) :
    getDayIndex epoch now = ⌊((jsMidnight now - epoch : ℤ) : ℚ) / 86400000⌋ ∧
    0 ≤ getDayIndex epoch now ∧
    (∀ t₁ t₂ : ℤ, t₁ ≤ t₂ → getDayIndex epoch t₁ ≤ getDayIndex epoch t₂) ∧
    (∀ t : ℤ, jsMidnight now ≤ t → t < jsMidnight now + 86400000 →
      getDayIndex epoch t = getDayIndex epoch now) ∧
    getDayIndex epoch (jsMidnight now + 86400000) = getDayIndex epoch now + 1 := by
  refine ⟨?_, ?_, ?_, ?_, ?_⟩
  · rw [getDayIndex]
    have hc : (86400000 : ℚ) = ((86400000 : ℕ) : ℚ) := by norm_num
    rw [hc, Rat.floor_intCast_div_natCast]
    norm_num
  · simp only [getDayIndex, jsMidnight]
    omega
  · intro t₁ t₂ h
    simp only [getDayIndex, jsMidnight]
    omega
  · intro t h1 h2
    simp only [getDayIndex, jsMidnight] at h1 h2 ⊢
    omega
  · simp only [getDayIndex, jsMidnight]
    omega

/-- Closed witness for `C3_getDayIndex_spec` at `epoch = 0`,
`now = 100000000`. -/
theorem C3_getDayIndex_spec_witness :
    0 ≤ getDayIndex 0 100000000 ∧
    getDayIndex 0 (jsMidnight 100000000 + 86400000) = getDayIndex 0 100000000 + 1 := by
  have h := C3_getDayIndex_spec 0 100000000 (by decide) (by decide)
  exact ⟨h.2.1, h.2.2.2.2⟩

theorem getD_of_lt (l : List ℕ) (n : ℕ) (h : n < l.length) : l.getD n 0 = l[n] := by
  simp [List.getD_eq_getElem?_getD, List.getElem?_eq_getElem h]

/-- C4: for every day offset `d ≥ 0` and every master order that is
a (non-empty) permutation of the pool, `getTodaysPuzzles` returns
exactly 5 ids; the id in slot `k` (`k < 5`) is
`order[(d * 5 + k) % order.length]`; each returned id is a member of the
pool; and the 5 ids are pairwise distinct whenever the pool has no
duplicate ids and at least 5 of them (so repeats can occur only if
`5 > length(pool)`). -/
theorem C4_getTodaysPuzzles_spec (d : ℕ) (order pool : List ℕ)
    (hperm : order.Perm pool) (hne : order ≠ []) :
    (getTodaysPuzzles d order).length = 5 ∧
    (∀ k, (hk : k < 5) → (getTodaysPuzzles d order).getD k 0
      = order.getD ((d * 5 + k) % order.length) 0) ∧
    (∀ x ∈ getTodaysPuzzles d order, x ∈ pool) ∧
    (pool.Nodup → 5 ≤ pool.length → (getTodaysPuzzles d order).Nodup) := by
  have hlen : 0 < order.length := List.length_pos.mpr hne
  refine ⟨by simp [getTodaysPuzzles], ?_, ?_, ?_⟩
  · intro k hk
    rw [getTodaysPuzzles]
    rw [getD_of_lt _ k (by simpa using hk)]
    simp
  · intro x hx
    rw [getTodaysPuzzles, List.mem_map] at hx
    obtain ⟨i, _, hi⟩ := hx
    rw [getD_of_lt _ _ (Nat.mod_lt _ hlen)] at hi
    exact hperm.mem_iff.mp (hi ▸ List.getElem_mem _)
  · intro hnodup h5
    have hond : order.Nodup := (hperm.nodup_iff).mpr hnodup
    have h5o : 5 ≤ order.length := hperm.length_eq ▸ h5
    rw [getTodaysPuzzles]
    refine List.Nodup.map_on ?_ (List.nodup_range 5)
    intro a ha b hb hfab
    rw [List.mem_range] at ha hb
    rw [getD_of_lt _ _ (Nat.mod_lt _ hlen), getD_of_lt _ _ (Nat.mod_lt _ hlen)] at hfab
    have hij : (d * 5 + a) % order.length = (d * 5 + b) % order.length :=
      (hond.getElem_inj_iff).mp hfab
    have hmod : a % order.length = b % order.length := by
      have := Nat.ModEq.add_left_cancel (Nat.ModEq.refl (d * 5)) (hij : _)
      exact this
    rwa [Nat.mod_eq_of_lt (by omega), Nat.mod_eq_of_lt (by omega)] at hmod

/-- Closed witness for `C4_getTodaysPuzzles_spec` at day offset 3 and a
7-id pool used as its own order. -/
theorem C4_getTodaysPuzzles_spec_witness :
    (getTodaysPuzzles 3 [10, 11, 12, 13, 14, 15, 16]).length = 5 ∧
    (∀ x ∈ getTodaysPuzzles 3 [10, 11, 12, 13, 14, 15, 16],
      x ∈ [10, 11, 12, 13, 14, 15, 16]) ∧
    (getTodaysPuzzles 3 [10, 11, 12, 13, 14, 15, 16]).Nodup := by
  have h := C4_getTodaysPuzzles_spec 3 [10, 11, 12, 13, 14, 15, 16]
    [10, 11, 12, 13, 14, 15, 16] (List.Perm.refl _) (by decide)
  exact ⟨h.1, h.2.2.1, h.2.2.2 (by decide) (by decide)⟩

/-- The JavaScript `\s` whitespace class used by
`guess.replace(/\s/g, '')` on line 157. -/
def jsIsSpace (c : Char) : Bool :=
  c ∈ [' ', '\t', '\n', '\r', '\x0b', '\x0c', ' ', ' ',
    ' ', ' ', ' ', ' ', ' ', ' ', ' ',
    ' ', ' ', ' ', ' ', ' ', ' ', ' ',
    ' ', '　', '﻿']

/-- The normalization `guess.toLowerCase().replace(/\s/g, '')` (line 157): lowercase, then
strip all whitespace.  Strings are modelled as lists of characters. -/
def cleanGuessOf (g : List Char) : List Char :=
  (g.map Char.toLower).filter (fun c => !(jsIsSpace c))

/-- A puzzle record, restricted to the fields the verification reads:
`answer` (plaintext) or `answerHash` (hex digest), each possibly
absent. -/
structure Puzzle where
  id : ℕ
  answer : Option (List Char)
  answerHash : Option (List Char)
deriving DecidableEq

/-- The sixteen lowercase hex digits, by code point. -/
def hexDigits : List Char :=
  (List.range 16).map (fun n => Char.ofNat (if n < 10 then 48 + n else 87 + n))

/-- The rendering `b.toString(16).padStart(2, '0')` of a byte `b` (line 86). -/
def byteToHex (b : ℕ) : List Char :=
  [hexDigits.getD (b / 16 % 16) 'x', hexDigits.getD (b % 16) 'x']

/-- The lowercase hex rendering of a digest's byte sequence
(lines 85-86). -/
def bytesToHex (bs : List ℕ) : List Char := (bs.map byteToHex).flatten

/-- The function `hashGuess` (src/src/App.jsx lines 80-90): the lowercase hex digest
of the text, or the string `"error"` when the digest primitive is
unavailable or throws (the catch branch on lines 87-89).  The digest is
the opaque external collaborator, passed as a parameter; `none` models
it being unavailable/throwing. -/
def hashGuess (digest : Option (List Char → List ℕ)) (text : List Char) : List Char :=
  match digest with
  | some d => bytesToHex (d text)
  | none => ['e', 'r', 'r', 'o', 'r']

/-- JS truthiness of an optional string (`undefined` and `""` are
falsy), as tested by `currentPuzzle.answerHash ? _ : _` on line 161. -/
def truthyStr : Option (List Char) → Bool
  | none => false
  | some [] => false
  | some (_ :: _) => true

/-- The verification of `handleSubmit` (lines 157-161): normalize the
guess, hash it, then compare against `answerHash` with `===` when that
field is truthy, else compare the normalized guess against `answer`
with `===` (comparison with an absent `answer` is false). -/
def verify (digest : Option (List Char → List ℕ)) (guess : List Char) (p : Puzzle) : Bool :=
  let cleanGuess := cleanGuessOf guess
  let hashedInput := hashGuess digest cleanGuess
  if truthyStr p.answerHash then hashedInput == p.answerHash.getD []
  else
    match p.answer with
    | some a => cleanGuess == a
    | none => false

/-- Case-insensitive hex comparison, as the spec words it ("compare for
exact equality against the stored digest (case-insensitive hex
comparison)").  Spec-side definition, used to state the C5
counterexample. -/
def hexEqCI (a b : List Char) : Bool := a.map Char.toLower == b.map Char.toLower

/-- A stub digest primitive producing the single byte 0xAB. -/
def digestStub : List Char → List ℕ := fun _ => [171]

/-- A puzzle whose stored digest is the uppercase hex form of the
digest of the normalized guess "x". -/
def puzzleUpperHash : Puzzle := ⟨1, none, some ['A', 'B']⟩

/-- C5 counterexample: the claim says verification succeeds iff the
digest of the normalized guess equals the stored digest under
*case-insensitive* hex comparison.  For the guess "X" against a stored
uppercase digest "AB", the case-insensitive comparison holds, yet the
code's `===` comparison (against the lowercase hex rendering) returns
false, so the claim's "iff" fails. -/
theorem C5_counterexample :
    hexEqCI (hashGuess (some digestStub) (cleanGuessOf ['X'])) ['A', 'B'] = true ∧
    verify (some digestStub) ['X'] puzzleUpperHash = false := by
  constructor <;> rfl

/-- C5 (amended): `verify` first normalizes the guess by lowercasing
and stripping all whitespace; if the puzzle has a (non-empty)
`answerHash`, it returns true iff the lowercase-hex digest of the
normalized guess is *exactly* (case-sensitively) equal to the stored
digest; otherwise it returns true iff the normalized guess equals
`puzzle.answer`. -/
theorem C5_verify_spec (digest : List Char → List ℕ) (g : List Char) (p : Puzzle) :
    (∀ h, p.answerHash = some h → h ≠ [] →
      (verify (some digest) g p = true ↔ bytesToHex (digest (cleanGuessOf g)) = h)) ∧
    (p.answerHash = none → ∀ a, p.answer = some a →
      (verify (some digest) g p = true ↔ cleanGuessOf g = a)) := by
  constructor
  · intro h hh hne
    match h, hne with
    | c :: t, _ =>
      simp [verify, hh, truthyStr, hashGuess]
  · intro hh a ha
    simp [verify, hh, ha, truthyStr]

/-- Closed witness for `C5_verify_spec`: the guess "aB " (with a
trailing space) verifies against a puzzle whose stored digest is the
lowercase hex digest "ab" of its normalization. -/
theorem C5_verify_spec_witness :
    verify (some digestStub) ['a', 'B', ' '] ⟨2, none, some ['a', 'b']⟩ = true := by
  have h := (C5_verify_spec digestStub ['a', 'B', ' '] ⟨2, none, some ['a', 'b']⟩).1
    ['a', 'b'] rfl (by decide)
  exact h.mpr (by decide)

/-- The hex-digit characters (either case); a stored digest is
well-formed when it is non-empty and consists of these. -/
def isHexDigit (c : Char) : Bool :=
  c.isDigit || ('a' ≤ c && c ≤ 'f') || ('A' ≤ c && c ≤ 'F')

/-- Line 166 of src/src/App.jsx:
`showHint ? 0 : (attempts === 0 ? 100 : (attempts === 1 ? 75 : (attempts === 2 ? 50 : 25)))`. -/
def pointsEarned (showHint : Bool) (attempts : ℕ) : ℕ :=
  if showHint then 0
  else if attempts = 0 then 100
  else if attempts = 1 then 75
  else if attempts = 2 then 50
  else 25

/-- The per-day session record: the `puzzlesToday`, `score` and
`scoreHistory` React states, which the success branch (lines 170-172)
also writes through to localStorage. -/
structure SessionState where
  puzzlesToday : ℤ
  score : ℤ
  history : List ℤ
deriving DecidableEq

/-- The session update of the success branch of `handleSubmit`
(lines 167-172): `newScore`, `newHistory`, `newPuzzlesToday`. -/
def completePuzzle (s : SessionState) (pts : ℤ) : SessionState :=
  ⟨s.puzzlesToday + 1, s.score + pts, s.history ++ [pts]⟩

/-- The `status` state of the UI (line 99). -/
inductive GStatus
  | idle
  | checking
  | success
  | error
deriving DecidableEq

/-- The transient per-puzzle state: `status`, `attempts`, `showHint`,
`guess`. -/
structure UiState where
  status : GStatus
  attempts : ℕ
  showHint : Bool
  guess : List Char
deriving DecidableEq

/-- The resolution of a submitted guess in `handleSubmit`
(lines 163-182), observed after the settle delays: on a correct guess
the session is completed with the points earned from the hint flag and
attempt count at submission, and the attempt state resets; on a wrong
guess the attempt counter increments, the guess clears, status returns
to idle and the session is untouched. -/
def resolveSubmit (correct : Bool) (ui : UiState) (sess : SessionState) :
    UiState × SessionState :=
  if correct then
    (⟨GStatus.idle, 0, false, []⟩,
      completePuzzle sess ((pointsEarned ui.showHint ui.attempts : ℕ) : ℤ))
  else
    (⟨GStatus.idle, ui.attempts + 1, ui.showHint, []⟩, sess)

/-- C6: for every guess and every puzzle whose stored `answerHash`
is a well-formed hex digest, a failing/unavailable digest primitive
makes verification return false (never true), and the submission then
resolves exactly as a wrong guess does. -/
theorem C6_digest_failure_fails_closed (g : List Char) (p : Puzzle) (h : List Char)
    (hh : p.answerHash = some h) (hhex : ∀ c ∈ h, isHexDigit c = true) (hne : h ≠ [])
    (ui : UiState) (sess : SessionState) :
    verify none g p = false ∧
    resolveSubmit (verify none g p) ui sess = resolveSubmit false ui sess := by
  have hver : verify none g p = false := by
    match h, hne, hhex with
    | c :: t, _, hhex =>
      simp only [verify, hh, truthyStr, if_true, Option.getD_some]
      by_cases heq : (hashGuess none (cleanGuessOf g)) = c :: t
      · exfalso
        have hr : 'r' ∈ c :: t := by
          rw [← heq]; simp [hashGuess]
        have := hhex 'r' hr
        exact absurd this (by decide)
      · simp [heq]
  exact ⟨hver, by rw [hver]⟩

/-- Closed witness for `C6_digest_failure_fails_closed`: a concrete
hash-backed puzzle and a digest outage. -/
theorem C6_digest_failure_fails_closed_witness :
    verify none ['x'] ⟨3, none, some ['0', '0']⟩ = false := by
  exact (C6_digest_failure_fails_closed ['x'] ⟨3, none, some ['0', '0']⟩ ['0', '0'] rfl
    (by decide) (by decide) ⟨GStatus.idle, 0, false, []⟩ ⟨0, 0, []⟩).1

/-- C7: the points awarded on success are 0 whenever a hint was
revealed, and otherwise the step function 0→100, 1→75, 2→50, ≥3→25 of
the attempt count, strictly decreasing across the classes
{0, 1, 2, ≥3} and non-increasing overall. -/
theorem C7_pointsEarned_spec :
    pointsEarned false 0 = 100 ∧ pointsEarned false 1 = 75 ∧
    pointsEarned false 2 = 50 ∧
    (∀ a, 3 ≤ a → pointsEarned false a = 25) ∧
    (∀ a, pointsEarned true a = 0) ∧
    (∀ a b, a < b → b ≤ 3 → pointsEarned false b < pointsEarned false a) ∧
    (∀ a b, a ≤ b → pointsEarned false b ≤ pointsEarned false a) := by
  refine ⟨rfl, rfl, rfl, ?_, ?_, ?_, ?_⟩
  · intro a ha
    match a, ha with
    | n + 3, _ => simp [pointsEarned]
  · intro a; rfl
  · intro a b hab hb3
    rcases a with _ | _ | _ | a <;> rcases b with _ | _ | _ | b <;>
      simp [pointsEarned] <;> omega
  · intro a b hab
    rcases a with _ | _ | _ | a <;> rcases b with _ | _ | _ | b <;>
      simp [pointsEarned] <;> omega

/-- Closed witness for `C7_pointsEarned_spec`: a second-attempt success
scores strictly less than a first-attempt one, and a hint forfeits the
points. -/
theorem C7_pointsEarned_spec_witness :
    pointsEarned false 1 < pointsEarned false 0 ∧ pointsEarned true 5 = 0 := by
  have h := C7_pointsEarned_spec
  exact ⟨h.2.2.2.2.2.1 0 1 (by decide) (by decide), h.2.2.2.2.1 5⟩

/-- The DaySession integrity invariant: the score is the sum of the
history, the completed-count is its length, and every entry is one of
the five possible awards. -/
def SessionInv (s : SessionState) : Prop :=
  s.score = s.history.sum ∧ (s.puzzlesToday : ℤ) = s.history.length ∧
  ∀ x ∈ s.history, x ∈ ([0, 25, 50, 75, 100] : List ℤ)

theorem pointsEarned_mem (hint : Bool) (att : ℕ) :
    ((pointsEarned hint att : ℕ) : ℤ) ∈ ([0, 25, 50, 75, 100] : List ℤ) := by
  cases hint
  · rcases att with _ | _ | _ | a <;> simp [pointsEarned]
  · simp [pointsEarned]

/-- C10: a successful completion appends exactly the earned points
to the history, adds exactly that value to the score, increments the
counter by exactly 1; the earned points are one of
{0, 25, 50, 75, 100}; and the DaySession integrity invariant is
preserved. -/
theorem C10_completePuzzle_invariant (sess : SessionState) (hint : Bool) (att : ℕ)
    (hinv : SessionInv sess) :
    SessionInv (completePuzzle sess ((pointsEarned hint att : ℕ) : ℤ)) ∧
    (completePuzzle sess ((pointsEarned hint att : ℕ) : ℤ)).history
      = sess.history ++ [((pointsEarned hint att : ℕ) : ℤ)] ∧
    (completePuzzle sess ((pointsEarned hint att : ℕ) : ℤ)).score
      = sess.score + ((pointsEarned hint att : ℕ) : ℤ) ∧
    (completePuzzle sess ((pointsEarned hint att : ℕ) : ℤ)).puzzlesToday
      = sess.puzzlesToday + 1 ∧
    ((pointsEarned hint att : ℕ) : ℤ) ∈ ([0, 25, 50, 75, 100] : List ℤ) := by
  obtain ⟨hsum, hlen, hmem⟩ := hinv
  refine ⟨⟨?_, ?_, ?_⟩, rfl, rfl, rfl, pointsEarned_mem hint att⟩
  · simp [completePuzzle, hsum]
  · simp [completePuzzle, hlen]
  · intro x hx
    rw [completePuzzle] at hx
    simp only [List.mem_append, List.mem_singleton] at hx
    rcases hx with hx | hx
    · exact hmem x hx
    · rw [hx]; exact pointsEarned_mem hint att

/-- Closed witness for `C10_completePuzzle_invariant`: completing the
first puzzle of the day on the third attempt with no hint. -/
theorem C10_completePuzzle_invariant_witness :
    SessionInv (completePuzzle ⟨0, 0, []⟩ ((pointsEarned false 2 : ℕ) : ℤ)) ∧
    (completePuzzle ⟨0, 0, []⟩ ((pointsEarned false 2 : ℕ) : ℤ)).history = [(50 : ℤ)] := by
  have h := C10_completePuzzle_invariant ⟨0, 0, []⟩ false 2 ⟨rfl, rfl, by simp⟩
  refine ⟨h.1, ?_⟩
  rw [h.2.1]
  rfl

/-- Decimal value of a digit run. -/
def digitsVal (ds : List Char) : ℕ := ds.foldl (fun a c => a * 10 + (c.toNat - 48)) 0

/-- Models `parseInt(s, 10)` (lines 111-112): skip leading whitespace, an
optional sign, then the longest prefix of decimal digits; `none` (NaN)
when no digit follows. -/
def jsParseInt (s : String) : Option ℤ :=
  match s.toList.dropWhile (fun c => jsIsSpace c) with
  | '-' :: rest =>
    let ds := rest.takeWhile Char.isDigit
    if ds = [] then none else some (-(digitsVal ds : ℤ))
  | '+' :: rest =>
    let ds := rest.takeWhile Char.isDigit
    if ds = [] then none else some ((digitsVal ds : ℤ))
  | cs =>
    let ds := cs.takeWhile Char.isDigit
    if ds = [] then none else some ((digitsVal ds : ℤ))

/-- Models `parseInt(localStorage.getItem(k), 10) || 0` (lines 111-112): an
absent key (`parseInt(null)` parses the string "null": NaN) and any
non-numeric value fall back to 0 through `|| 0` (which also maps a
parsed 0 to 0). -/
def parseIntOr0 (s : Option String) : ℤ :=
  match s with
  | none => 0
  | some str => (jsParseInt str).getD 0

/-- Leading/trailing whitespace trim, as `JSON.parse` allows around a
JSON value. -/
def jsonTrim (cs : List Char) : List Char :=
  ((cs.dropWhile (fun c => jsIsSpace c)).reverse.dropWhile (fun c => jsIsSpace c)).reverse

/-- One integer-literal element of a stored history array: an optional
minus sign and a non-empty digit run, with surrounding whitespace. -/
def parseJsonInt (cs : List Char) : Except Unit ℤ :=
  match jsonTrim cs with
  | '-' :: ds =>
    if ds ≠ [] ∧ ds.all Char.isDigit then Except.ok (-(digitsVal ds : ℤ))
    else Except.error ()
  | ds =>
    if ds ≠ [] ∧ ds.all Char.isDigit then Except.ok ((digitsVal ds : ℤ))
    else Except.error ()

def parseAllInts : List (List Char) → Except Unit (List ℤ)
  | [] => Except.ok []
  | p :: ps =>
    match parseJsonInt p, parseAllInts ps with
    | Except.ok v, Except.ok vs => Except.ok (v :: vs)
    | _, _ => Except.error ()

/-- Models `JSON.parse` applied to the stored history value (line 113),
restricted to the value shapes this program ever stores: the JSON
literal `null` and arrays of integer literals.  `Except.error` models
the uncaught `SyntaxError` that `JSON.parse` throws on malformed input
(other well-formed JSON values, which this program never writes, are
conservatively mapped to failures as well).  The `Option` result
distinguishes a parsed `null` (falsy) from a parsed array. -/
def jsonParseHistory (cs : List Char) : Except Unit (Option (List ℤ)) :=
  let t := jsonTrim cs
  if t = ['n', 'u', 'l', 'l'] then Except.ok none
  else if 2 ≤ t.length ∧ t.head? = some '[' ∧ t.getLast? = some ']' then
    let interior := (t.drop 1).dropLast
    if jsonTrim interior = [] then Except.ok (some [])
    else (parseAllInts (interior.splitOn ',')).map some
  else Except.error ()

/-- Models `JSON.parse(localStorage.getItem('gchq-history')) || []` (line 113):
an absent key gives `JSON.parse(null)`, i.e. the value `null`, and the
`|| []` fallback; a present value must parse, and a falsy parse result
falls back to `[]`. -/
def loadHistory (s : Option String) : Except Unit (List ℤ) :=
  match s with
  | none => Except.ok []
  | some hstr => (jsonParseHistory hstr.toList).map (fun hv => hv.getD [])

/-- The localStorage keys the load effect reads (lines 108-121):
`gchq-date`, `gchq-puzzles-today`, `gchq-score`, `gchq-history`.
`none` models an absent key. -/
structure Store where
  date : Option String
  puzzlesToday : Option String
  score : Option String
  history : Option String
deriving DecidableEq

/-- The store written by the reset branch (lines 117-120). -/
def resetStore (today : String) : Store :=
  ⟨some today, some "0", some "0", some "[]"⟩

/-- The load effect (src/src/App.jsx lines 107-130): parse the three
stored values — the history parse can fail, modelling the uncaught
`JSON.parse` exception, in which case nothing after line 113 runs —
then, if the stored date differs from today's date string, zero the
in-memory session and persist the reset; otherwise resume the parsed
values with the store unchanged. -/
def loadSession (store : Store) (today : String) : Except Unit (Store × SessionState) :=
  match loadHistory store.history with
  | Except.error e => Except.error e
  | Except.ok savedHistory =>
    if store.date = some today then
      Except.ok (store,
        ⟨parseIntOr0 store.puzzlesToday, parseIntOr0 store.score, savedHistory⟩)
    else
      Except.ok (resetStore today, ⟨0, 0, []⟩)

/-- C8 counterexample: on a load whose stored date differs from
today but whose stored history is not valid JSON, the uncaught
`JSON.parse` exception aborts the effect before the reset is persisted,
so the reset is *not* "persisted before anything else runs" on this
load. -/
theorem C8_counterexample :
    loadSession ⟨some "Fri Oct 10 2025", some "3", some "150", some "oops"⟩
      "Sat Oct 11 2025" = Except.error () := by
  rfl

/-- C8 (amended): on every load that completes (the stored history
value is absent or parses), if the stored date differs from today's
local date string the session is reset to
`{date: today, 0, 0, []}` with the reset persisted; if the stored date
equals today's, the stored session is resumed with the store unchanged;
and loading again after any completed load returns the identical store
and session, so cumulative score and history never change through
loads alone. -/
theorem C8_loadSession_spec (store : Store) (today : String) (st : Store)
    (sess : SessionState) (hload : loadSession store today = Except.ok (st, sess)) :
    (store.date ≠ some today → st = resetStore today ∧ sess = ⟨0, 0, []⟩) ∧
    (store.date = some today → st = store) ∧
    loadSession st today = Except.ok (st, sess) := by
  rcases hh : loadHistory store.history with e | savedHistory
  · rw [loadSession, hh] at hload
    exact absurd hload (by simp)
  · simp only [loadSession, hh] at hload
    by_cases hdate : store.date = some today
    · rw [if_pos hdate] at hload
      have hpair := Except.ok.inj hload
      have hst : st = store := (congrArg Prod.fst hpair).symm
      refine ⟨fun hne => absurd hdate hne, fun _ => hst, ?_⟩
      rw [hst] at hload ⊢
      simp only [loadSession, hh]
      rw [if_pos hdate]
      exact hload
    · rw [if_neg hdate] at hload
      have hpair := Except.ok.inj hload
      have hst : st = resetStore today := (congrArg Prod.fst hpair).symm
      have hsess : sess = ⟨0, 0, []⟩ := (congrArg Prod.snd hpair).symm
      refine ⟨fun _ => ⟨hst, hsess⟩, fun hd => absurd hd hdate, ?_⟩
      rw [hst, hsess]
      have hrh : loadHistory (resetStore today).history = Except.ok [] := rfl
      simp only [loadSession, hrh]
      rw [show (resetStore today).date = some today from rfl, if_pos rfl]
      rfl

/-- Closed witness for `C8_loadSession_spec`: a concrete stale-date
store is reset and persisted, and reloading on the same date changes
nothing. -/
theorem C8_loadSession_spec_witness :
    loadSession ⟨some "Thu Oct 09 2025", some "2", some "175", some "[100,75]"⟩
        "Fri Oct 10 2025"
      = Except.ok (resetStore ("Fri Oct 10 2025"), ⟨0, 0, []⟩) ∧
    loadSession (resetStore ("Fri Oct 10 2025")) "Fri Oct 10 2025"
      = Except.ok (resetStore ("Fri Oct 10 2025"), ⟨0, 0, []⟩) := by
  have hload : loadSession
      ⟨some "Thu Oct 09 2025", some "2", some "175", some "[100,75]"⟩ "Fri Oct 10 2025"
      = Except.ok (resetStore ("Fri Oct 10 2025"), ⟨0, 0, []⟩) := rfl
  have h := C8_loadSession_spec _ _ _ _ hload
  exact ⟨hload, h.2.2⟩

/-- C9: the claim holds for the integer-valued keys — non-integer
stored counters and scores fall back to 0 — but fails for the history
key: a malformed (non-JSON) stored history makes the unguarded
`JSON.parse` on line 113 throw, aborting the load instead of
substituting the empty default.  The first conjunct shows the default
substitution for the counters; the second shows the same-date load
failing outright on a malformed history. -/
theorem C9_malformed_persistence :
    loadSession ⟨some "Sat Oct 11 2025", some "abc", some "xyz", some "[]"⟩
        "Sat Oct 11 2025"
      = Except.ok (⟨some "Sat Oct 11 2025", some "abc", some "xyz", some "[]"⟩,
          ⟨0, 0, []⟩) ∧
    loadSession ⟨some "Sat Oct 11 2025", some "0", some "0", some "not json"⟩
        "Sat Oct 11 2025" = Except.error () :=
  ⟨rfl, rfl⟩
